import Mathlib

/-!
Verification model of `dashboard_datatable_builder` (`src/main.rs`).

The program is a batch pipeline: select recent `fwddmp.log.tmp*` files,
extract blocked-IP events from delimited records, deduplicate them, append
them to a CSV ledger (`events.csv`), then compact the ledger (retention
filter + dedup + sort newest-first + in-place rewrite).

Strings are modelled as `List Char` (the csv crate trims and splits on
character boundaries; all inputs of interest are plain text).  Each
definition mirrors one function or expression of `src/main.rs`; the doc
comments record the correspondence and the modelling conventions for the
external crates (`chrono`, `csv`, `regex`).
-/

namespace DashboardBuilder

/-- Unicode white-space: the characters with the Unicode `White_Space`
property.  This is both the class matched by `\s` in the Rust `regex`
crate (Unicode mode, the default) and the class accepted by the Rust
`char::is_whitespace` test that `str::trim` uses. -/
def isUnicodeWs (c : Char) : Bool :=
  c = ' ' || c = '\t' || c = '\n' || c.val = 0x0B || c.val = 0x0C || c = '\r' ||
  c.val = 0x85 || c.val = 0xA0 || c.val = 0x1680 ||
  (0x2000 ≤ c.val && c.val ≤ 0x200A) ||
  c.val = 0x2028 || c.val = 0x2029 || c.val = 0x202F || c.val = 0x205F || c.val = 0x3000

/-- Strip white-space from both ends of a field, as the `csv` reader
with `.trim(Trim::All)` does to each field of every yielded record.
Both readers of the program consume `records()`, i.e. `StringRecord`s,
and the csv crate trims string records with the Unicode white-space
definition (`StringRecord::trim`, built on `str::trim`), so the class
stripped here is `isUnicodeWs`, not merely ASCII white-space. -/
def csvTrim (cs : List Char) : List Char :=
  ((cs.dropWhile isUnicodeWs).reverse.dropWhile isUnicodeWs).reverse

/-- Scan for the `>` that ends the leading `[...>` tag, mirroring the lazy
`.*?>` part of the regex `^\[.*?>\s*` (main.rs line 83): `.` does not
match a newline, and laziness means the first `>` ends the tag.  Returns
the characters after that first `>`, or `none` when no `>` is reachable
without crossing a newline (then the regex does not match). -/
def findTagEnd : List Char → Option (List Char)
  | [] => none
  | c :: rest =>
    if c = '>' then some rest
    else if c = '\n' then none
    else findTagEnd rest

/-- Model of `clean_event_description` (main.rs lines 82-85):
`Regex::new(r"^\[.*?>\s*")` + `replace_all(event_description, "")`.
Because the pattern is anchored at `^` (start of haystack, not
multi-line), `replace_all` removes at most one match, at position 0:
a leading `[`, the lazily shortest run of non-newline characters up to
the first `>`, and the following run of `\s` white-space. -/
def clean_event_description (cs : List Char) : List Char :=
  match cs with
  | [] => []
  | c :: rest =>
    if c = '[' then
      match findTagEnd rest with
      | some after => after.dropWhile isUnicodeWs
      | none => c :: rest
    else c :: rest

/-- Whether the cleaning regex `^\[.*?>\s*` matches at the start of the
string, i.e. whether `clean_event_description` would strip a tag. -/
def hasLeadingTag (cs : List Char) : Bool :=
  match cs with
  | [] => false
  | c :: rest => c = '[' && (findTagEnd rest).isSome

/-- A naive (timezone-less) date-time, the relevant content of the chrono
`NaiveDateTime` type as produced by `parse_from_str` with format
`"%Y/%m/%d %H:%M:%S"`.  Negative years and leap seconds are not
modelled (no claim depends on them). -/
structure NaiveDateTime where
  year : Nat
  month : Nat
  day : Nat
  hour : Nat
  minute : Nat
  second : Nat
deriving DecidableEq, Repr

/-- Order-embedding key: for component values inside their valid ranges
(month 1-12, day 1-31, hour ≤ 23, minute, second ≤ 59 — exactly what the
parser admits) `key` is strictly monotone in chronological order and
injective, so the chrono `NaiveDateTime` comparison `cmp` agrees with
comparing keys. -/
def NaiveDateTime.key (dt : NaiveDateTime) : Nat :=
  ((((dt.year * 13 + dt.month) * 32 + dt.day) * 24 + dt.hour) * 60 + dt.minute) * 60
    + dt.second

/-- Numeric value of a run of decimal digit characters. -/
def digitsToNat (ds : List Char) : Nat :=
  ds.foldl (fun a c => a * 10 + (c.toNat - 48)) 0

/-- Parse one numeric field of a chrono format string: skip leading
white-space (chrono trims before every numeric item), then consume at
least one and at most `maxDigits` decimal digits.  Returns the value and
the remaining input. -/
def parseNum (maxDigits : Nat) (cs : List Char) : Option (Nat × List Char) :=
  let cs' := cs.dropWhile isUnicodeWs
  let ds := (cs'.takeWhile Char.isDigit).take maxDigits
  if ds.isEmpty then none
  else some (digitsToNat ds, cs'.drop ds.length)

/-- Match one literal character of the format string. -/
def expectChar (c : Char) : List Char → Option (List Char)
  | [] => none
  | c' :: rest => if c' = c then some rest else none

/-- Days in a month of the proleptic Gregorian calendar, the calendar
of chrono (leap year: divisible by 4 and not by 100, or by 400). -/
def daysInMonth (y m : Nat) : Nat :=
  if m = 2 then
    if y % 4 = 0 && (y % 100 ≠ 0 || y % 400 = 0) then 29 else 28
  else if m = 4 || m = 6 || m = 9 || m = 11 then 30
  else 31

/-- Component-range validity check performed by chrono when it assembles
the parsed fields into a `NaiveDateTime` (`from_ymd_opt`/`from_hms_opt`). -/
def validDateTime (dt : NaiveDateTime) : Bool :=
  1 ≤ dt.month && dt.month ≤ 12 &&
  1 ≤ dt.day && dt.day ≤ daysInMonth dt.year dt.month &&
  dt.hour ≤ 23 && dt.minute ≤ 59 && dt.second ≤ 59

/-- Model of `NaiveDateTime::parse_from_str(s, "%Y/%m/%d %H:%M:%S")`, modelling
chrono: each numeric item consumes optional leading white-space then 1-4
(year) or 1-2 (other fields) digits; `/`, `:` must match literally; the
literal space in the format reads a (possibly empty) white-space run;
any unconsumed input is an error (`TOO_LONG`); the assembled components
must pass the range checks. -/
def parseDT (cs : List Char) : Option NaiveDateTime :=
  match parseNum 4 cs with
  | none => none
  | some (y, r1) =>
    match expectChar '/' r1 with
    | none => none
    | some r2 =>
      match parseNum 2 r2 with
      | none => none
      | some (mo, r3) =>
        match expectChar '/' r3 with
        | none => none
        | some r4 =>
          match parseNum 2 r4 with
          | none => none
          | some (d, r5) =>
            match parseNum 2 (r5.dropWhile isUnicodeWs) with
            | none => none
            | some (h, r6) =>
              match expectChar ':' r6 with
              | none => none
              | some r7 =>
                match parseNum 2 r7 with
                | none => none
                | some (mi, r8) =>
                  match expectChar ':' r8 with
                  | none => none
                  | some r9 =>
                    match parseNum 2 r9 with
                    | none => none
                    | some (s, r10) =>
                      if r10.isEmpty then
                        let dt : NaiveDateTime := ⟨y, mo, d, h, mi, s⟩
                        if validDateTime dt then some dt else none
                      else none

/-- The readable part of `std::fs::Metadata` used by `filter_files`:
`modified()` returns the modification time (seconds since `UNIX_EPOCH`),
or an error, modelled by `none`. -/
structure FileMetadata where
  modified : Option Nat
deriving DecidableEq, Repr

/-- A `std::fs::DirEntry`: its file name, and its metadata (`none` when
`entry.metadata()` returns an error). -/
structure DirEntry where
  file_name : List Char
  metadata : Option FileMetadata
deriving DecidableEq, Repr

/-- The per-entry predicate inside `filter_files` (main.rs lines 34-59).
`nowTs` is `Local::now().timestamp()` captured once before the loop;
`sysNow` models the per-entry `SystemTime::now()` fallback (in seconds)
that `meta.modified().unwrap_or_else(|_| SystemTime::now())` substitutes
when the modification time cannot be read.  `chrono::Duration::try_days`
is exactly `days_back * 86400` seconds.  The `try_into` of the cutoff
into `u64` is modelled as an `Int` comparison (it succeeds whenever the
cutoff is non-negative, which the selection theorems assume). -/
def entryKept (nowTs days_back : Int) (sysNow : Nat) (e : DirEntry) : Bool :=
  ("fwddmp.log.tmp".data.isPrefixOf e.file_name) &&
  (match e.metadata with
   | none => false
   | some meta =>
     let file_time : Nat := meta.modified.getD sysNow
     decide ((file_time : Int) > nowTs - days_back * 86400))

/-- Model of `filter_files` (main.rs lines 29-61): keep the directory entries whose
name starts with `"fwddmp.log.tmp"` and which pass the time window test;
entries whose `metadata()` errors are dropped by `unwrap_or(false)`.
The directory listing itself is a parameter (its read error is fatal and
outside this model). -/
def filter_files (entries : List DirEntry) (nowTs days_back : Int) (sysNow : Nat) :
    List DirEntry :=
  entries.filter (entryKept nowTs days_back sysNow)

/-- Comma splitting as in Rust: split on every comma; splitting the empty
string yields one empty field. -/
def splitCommaAux (acc : List Char) : List Char → List (List Char)
  | [] => [acc.reverse]
  | c :: rest =>
    if c = ',' then acc.reverse :: splitCommaAux [] rest
    else splitCommaAux (c :: acc) rest

/-- Split a string on commas, as `s.split(\x27,\x27)` does. -/
def splitComma (cs : List Char) : List (List Char) :=
  splitCommaAux [] cs

/-- Comma-join of fields, as in `record.iter().collect::<Vec<&str>>().join(",")`
and the `format!("{a},{b},...")` entry template. -/
def joinComma : List (List Char) → List Char
  | [] => []
  | [f] => f
  | f :: rest => f ++ ',' :: joinComma rest

/-- Field access `record.get(i).unwrap_or_default()`: the i-th field of a
parsed record, or the empty string when the record is shorter. -/
def fieldAt (record : List (List Char)) (i : Nat) : List Char :=
  (record.get? i).getD []

/-- The entry string built by `process_csv_file` for an accepted record
(main.rs lines 139-147):
`"{date_time_str},{source_ip},{destination_ip},{cleaned_description},{priority}"`
with fields at indices 4, 6, 12, 3 (cleaned), 1. -/
def entryOf (record : List (List Char)) : List Char :=
  joinComma [fieldAt record 4, fieldAt record 6, fieldAt record 12,
             clean_event_description (fieldAt record 3), fieldAt record 1]

/-- The inclusion test of `process_csv_file` (main.rs lines 137-138): the
`Date/Time` field (index 4) parses under `"%Y/%m/%d %H:%M:%S"`, the
parsed date is strictly after the cutoff (`now - Duration::days(days_back)`,
passed here as the already-computed `cutoff`), and the `Blocked` field
(index 11) is the literal `"1"`. -/
def includeRecord (cutoff : NaiveDateTime) (record : List (List Char)) : Bool :=
  match parseDT (fieldAt record 4) with
  | none => false
  | some dt => decide (cutoff.key < dt.key) && fieldAt record 11 = "1".data

/-- Determinised `HashSet::insert`: insert at the end unless already
present.  The Rust `HashSet` has no observable order; the pipeline only
ever consumes the elements of the set (membership, size, iteration in some
order), and every proved property is order-independent. -/
def insertUnique (acc : List (List Char)) (s : List Char) : List (List Char) :=
  if s ∈ acc then acc else acc ++ [s]

/-- One input row of `process_csv_file`: `Except.error e` models a record
the csv reader failed to read (`Err(e)` in the loop, main.rs lines
129-135), `Except.ok r` a parsed record with whitespace-trimmed fields. -/
abbrev CsvRow := Except (List Char) (List (List Char))

/-- The record loop of `process_csv_file` (main.rs lines 128-154), over
already-parsed rows; `acc` is the `unique_entries` set built so far.
Returns the deduplicated entries and the lines printed to stdout, in
order: a read error prints `Failed to read record: {e}` and continues; a
record whose date field does not parse prints
`Skipping record with invalid date: {s}` and continues; an accepted
record inserts its entry string into the set. -/
def processRows (cutoff : NaiveDateTime) (acc : List (List Char)) :
    List CsvRow → List (List Char) × List (List Char)
  | [] => (acc, [])
  | Except.error e :: rest =>
    let r := processRows cutoff acc rest
    (r.1, ("Failed to read record: ".data ++ e) :: r.2)
  | Except.ok record :: rest =>
    match parseDT (fieldAt record 4) with
    | none =>
      let r := processRows cutoff acc rest
      (r.1, ("Skipping record with invalid date: ".data ++ fieldAt record 4) :: r.2)
    | some dt =>
      if decide (cutoff.key < dt.key) && fieldAt record 11 = "1".data then
        processRows cutoff (insertUnique acc (entryOf record)) rest
      else
        processRows cutoff acc rest

/-- Model of `process_csv_file` (main.rs lines 119-157) over the parsed
rows of the file; `cutoff` is
`(Local::now() - Duration::days(days_back)).naive_local()`, computed
once per file.  The csv reading layer (`has_headers(false)`,
`Trim::All`) is modelled by the rows already being headerless trimmed
records.  First component: the `unique_entries` set; second: stdout. -/
def process_csv_file (rows : List CsvRow) (cutoff : NaiveDateTime) :
    List (List Char) × List (List Char) :=
  processRows cutoff [] rows

/-- The entry strings of the rows that pass the inclusion predicate, in
row order (before deduplication). -/
def extractEntries (cutoff : NaiveDateTime) (rows : List CsvRow) : List (List Char) :=
  rows.filterMap fun row =>
    match row with
    | Except.error _ => none
    | Except.ok record =>
      if includeRecord cutoff record then some (entryOf record) else none

/-- Whether the writer of the `csv` crate (default `QuoteStyle::Necessary`)
must quote a field: it contains the delimiter, a quote, or a line
terminator character. -/
def needsQuote (f : List Char) : Bool :=
  f.any fun c => c = ',' || c = '"' || c = '\n' || c = '\r'

/-- Quote-escaping inside a quoted csv field: each `"` is doubled. -/
def escapeQuotes : List Char → List Char
  | [] => []
  | c :: rest =>
    if c = '"' then '"' :: '"' :: escapeQuotes rest else c :: escapeQuotes rest

/-- One field as the csv writer emits it: quoted (with doubled inner
quotes) when necessary, verbatim otherwise. -/
def encodeField (f : List Char) : List Char :=
  if needsQuote f then '"' :: (escapeQuotes f ++ ['"']) else f

/-- One record as `Writer::write_record` emits it: comma-joined encoded
fields plus the `\n` terminator.  A record consisting of a single empty
field is written as the quoted empty string `""` (the csv crate does
this so the line is not mistaken for an empty row on re-reading). -/
def writeRecord (fields : List (List Char)) : List Char :=
  if fields = [[]] then '"' :: '"' :: ['\n']
  else joinComma (fields.map encodeField) ++ ['\n']

/-- The write loop of `write_to_csv` (main.rs lines 188-191): each entry
is split on commas and written as one record, appended after `acc`. -/
def writeEntriesFrom (acc : List Char) : List (List Char) → List Char
  | [] => acc
  | e :: rest => writeEntriesFrom (acc ++ writeRecord (splitComma e)) rest

/-- Model of `write_to_csv` (main.rs lines 180-194): the ledger is opened with
`append(true).create(true)` — existing content (`file = some old`) is
kept and writes land after it; an absent file (`file = none`) starts
empty.  Returns the resulting file content.  (`entries` is the
`HashSet` in some iteration order; every property proved about the
writer is order-generic.) -/
def write_to_csv (entries : List (List Char)) (file : Option (List Char)) : List Char :=
  writeEntriesFrom (file.getD []) entries

/-- Parser mode of the csv reader: inside an unquoted field, inside a
quoted field, or just after a `"` inside a quoted field (which either
doubles to a literal quote or ends the quoted section). -/
inductive CsvMode
  | plain : CsvMode
  | quoted : CsvMode
  | quoteSeen : CsvMode
deriving DecidableEq, Repr

/-- State of the csv reader automaton: finished records, finished fields
of the current record, characters of the current field, mode, and
whether the current record has consumed any character (blank lines are
skipped, so a terminator with nothing consumed emits no record). -/
structure CsvState where
  recs : List (List (List Char))
  cur : List (List Char)
  field : List Char
  mode : CsvMode
  started : Bool
deriving Repr

/-- One character step of the csv reader (the `csv` crate with default
delimiter `,`, default terminator — `\r`, `\n` or `\r\n` — double-quote
escaping, and `Trim::All` applied to each finished field).  A `"` opens
a quoted section only at the start of a field; blank lines produce no
record. -/
def csvStep (st : CsvState) (c : Char) : CsvState :=
  match st.mode with
  | CsvMode.plain =>
    if c = ',' then
      { st with cur := st.cur ++ [csvTrim st.field], field := [], started := true }
    else if c = '\n' ∨ c = '\r' then
      if st.started then
        { recs := st.recs ++ [st.cur ++ [csvTrim st.field]], cur := [], field := [],
          mode := CsvMode.plain, started := false }
      else st
    else if c = '"' ∧ st.field = [] then
      { st with mode := CsvMode.quoted, started := true }
    else
      { st with field := st.field ++ [c], started := true }
  | CsvMode.quoted =>
    if c = '"' then { st with mode := CsvMode.quoteSeen }
    else { st with field := st.field ++ [c] }
  | CsvMode.quoteSeen =>
    if c = '"' then { st with field := st.field ++ ['"'], mode := CsvMode.quoted }
    else if c = ',' then
      { st with cur := st.cur ++ [csvTrim st.field], field := [], mode := CsvMode.plain }
    else if c = '\n' ∨ c = '\r' then
      { recs := st.recs ++ [st.cur ++ [csvTrim st.field]], cur := [], field := [],
        mode := CsvMode.plain, started := false }
    else
      { st with field := st.field ++ [c], mode := CsvMode.plain }

/-- Start state of the reader. -/
def csvInit : CsvState :=
  { recs := [], cur := [], field := [], mode := CsvMode.plain, started := false }

/-- End of input: a record in progress (no trailing terminator) is still
emitted. -/
def csvFinish (st : CsvState) : List (List (List Char)) :=
  if st.started then st.recs ++ [st.cur ++ [csvTrim st.field]] else st.recs

/-- Parse a whole file as delimited records with whitespace-trimmed
fields (the reading layer shared by `process_csv_file` and
`filter_csv_by_date`). -/
def readCsv (cs : List Char) : List (List (List Char)) :=
  csvFinish (cs.foldl csvStep csvInit)

/-- Sort key used by the compactor comparator (main.rs lines 244-252):
the text of the record string up to the first comma, re-parsed as a date.
The source `expect("RESULT")`s the parse — a panic that is unreachable
because every record in the sorted set passed the date filter (proved
below); the `none` branch is that dead branch. -/
def recordKey (s : List Char) : Nat :=
  match parseDT ((splitComma s).headD []) with
  | some dt => dt.key
  | none => 0

/-- The comparator `|a, b| b_parsed.cmp(&a_parsed)`: descending by parsed
timestamp. -/
def descLe (a b : List Char) : Bool :=
  decide (recordKey b ≤ recordKey a)

/-- The filter/dedup loop of `filter_csv_by_date` (main.rs lines
229-240): keep a record when it has a first field (`record.get(0)`),
that field parses under the fixed format, and the date is strictly
after the cutoff; kept records are re-joined on commas and inserted
into the `records_to_keep` set (string-level dedup). -/
def compactStep (cutoff : NaiveDateTime) (acc : List (List Char))
    (record : List (List Char)) : List (List Char) :=
  match record.head? with
  | none => acc
  | some date_str =>
    match parseDT date_str with
    | none => acc
    | some dt =>
      if cutoff.key < dt.key then insertUnique acc (joinComma record) else acc

/-- The whole filter/dedup loop: fold `compactStep` over the rows the
reader yields, starting from the empty set. -/
def compactKeep (cutoff : NaiveDateTime) (rows : List (List (List Char))) :
    List (List Char) :=
  rows.foldl (compactStep cutoff) []

/-- Model of `filter_csv_by_date` (main.rs lines 218-269) over the parsed rows of
the ledger.  The reader is built without `has_headers(false)`, so the
csv crate default treats the first row as a header and `records()`
skips it: the loop sees `rows.drop 1`.  `cutoff` is
`Local::now().naive_local() - Duration::days(days_back)`, computed once.
Returns the record strings written back (sorted descending by parsed
timestamp) and the lines printed to stdout — none: this function prints
nothing, dropped records get no diagnostic.  (Raw csv read errors,
`result?`, abort the run and are outside this value-level model.) -/
def filter_csv_by_date (rows : List (List (List Char))) (cutoff : NaiveDateTime) :
    List (List Char) × List (List Char) :=
  ((compactKeep cutoff (rows.drop 1)).mergeSort descLe, [])

/-- The tail of `main` (main.rs lines 329-330):
`let _ = write_to_csv(all_entries, output_path); filter_csv_by_date(output_path, retention_days)`.
The `let _ =` discards the `io::Result` of the writer, so the result of
main is the compactor result alone, whatever the writer returned. -/
def mainTail (writeResult compactResult : Except (List Char) Unit) :
    Except (List Char) Unit :=
  match writeResult with
  | _ => compactResult

/-! ### General lemmas -/

/-- When the cleaning regex does not match, cleaning leaves the string
unchanged. -/
theorem clean_of_no_tag (cs : List Char) (h : hasLeadingTag cs = false) :
    clean_event_description cs = cs := by
  match cs with
  | [] => rfl
  | c :: rest =>
    unfold hasLeadingTag at h
    unfold clean_event_description
    by_cases hc : c = '['
    · subst hc
      simp at h
      simp [h]
    · simp [hc]

/-- Unfolding lemma for the append loop of the writer: the accumulator
is a prefix of the output. -/
theorem writeEntriesFrom_eq (es : List (List Char)) :
    ∀ acc, writeEntriesFrom acc es = acc ++ writeEntriesFrom [] es := by
  induction es with
  | nil => intro acc; simp [writeEntriesFrom]
  | cons e rest ih =>
    intro acc
    show writeEntriesFrom (acc ++ writeRecord (splitComma e)) rest =
      acc ++ writeEntriesFrom ([] ++ writeRecord (splitComma e)) rest
    rw [ih (acc ++ writeRecord (splitComma e)), ih ([] ++ writeRecord (splitComma e))]
    simp

/-! ### C1: description-normalization idempotence -/

/-- C1 counterexample: the claim says cleaning is idempotent for every
string, but the regex strips one leading tag per call, and the result
of a strip can again start with a strippable tag: cleaning
`"[a>[b>x"` once gives `"[b>x"`, cleaning it twice gives `"x"`. -/
theorem C1_counterexample :
    clean_event_description (clean_event_description "[a>[b>x".data) ≠
      clean_event_description "[a>[b>x".data := by decide

/-- C1 (amended): one application of `clean_event_description` removes at
most the single leading `[...>` tag (prefix-anchored, no global
replacement), so applying it twice equals applying it once whenever the
once-cleaned string does not itself begin with a strippable tag; it is
not idempotent on strings, such as `"[a>[b>x"`, whose first strip
exposes a second tag. -/
theorem C1_clean_idempotent_unless_new_tag (cs : List Char)
    (h : hasLeadingTag (clean_event_description cs) = false) :
    clean_event_description (clean_event_description cs) =
      clean_event_description cs :=
  clean_of_no_tag _ h

/-- Witness for C1 at a concrete input: `"[tag> real text"` cleans to
`"real text"`, which has no further tag, so cleaning is idempotent
there. -/
theorem C1_witness :
    hasLeadingTag (clean_event_description "[tag> real text".data) = false ∧
    clean_event_description (clean_event_description "[tag> real text".data) =
      clean_event_description "[tag> real text".data :=
  ⟨by decide, C1_clean_idempotent_unless_new_tag _ (by decide)⟩

/-! ### C2: ledger-append failure is not fatal -/

/-- C2 (code bug): `main` discards the `io::Result` of `write_to_csv`
with `let _ =` (main.rs line 329), so when the append fails
(`Except.error`) and the subsequent compaction succeeds, the run still
returns success — the ledger-append failure is silently ignored, while
the claim (and the doc comment of `main` itself) says it is fatal. -/
theorem C2_append_error_swallowed :
    mainTail (Except.error "No space left on device".data) (Except.ok ()) =
      Except.ok () := rfl

/-! ### C3: metadata errors in the File Selector -/

/-- C3 counterexample: a directory entry whose modification time cannot
be read (`modified()` errors, `metadata()` succeeds) is not excluded:
the code substitutes the current `SystemTime::now()` for the file time,
and with `days_back = 1` the entry is included. -/
theorem C3_counterexample :
    (⟨"fwddmp.log.tmp1".data, some ⟨none⟩⟩ : DirEntry) ∈
      filter_files [⟨"fwddmp.log.tmp1".data, some ⟨none⟩⟩] 1000000 1 1000000 := by
  decide

/-- C3 (amended): an entry whose `metadata()` call fails is excluded
silently, but an entry whose metadata is readable and only whose
modification time cannot be read is not excluded on that account: the
current time `sysNow` is substituted, so the entry is selected exactly
when its name matches and `sysNow` lies inside the window. -/
theorem C3_metadata_unreadable (entries : List DirEntry)
    (nowTs days_back : Int) (sysNow : Nat) (e : DirEntry) :
    (e.metadata = none → e ∉ filter_files entries nowTs days_back sysNow) ∧
    (e.metadata = some ⟨none⟩ →
      (e ∈ filter_files entries nowTs days_back sysNow ↔
        e ∈ entries ∧ "fwddmp.log.tmp".data.isPrefixOf e.file_name = true ∧
          (sysNow : Int) > nowTs - days_back * 86400)) := by
  constructor
  · intro hmeta hmem
    rw [filter_files, List.mem_filter] at hmem
    have h2 := hmem.2
    unfold entryKept at h2
    rw [hmeta] at h2
    simp at h2
  · intro hmeta
    rw [filter_files, List.mem_filter]
    unfold entryKept
    rw [hmeta]
    simp [and_assoc]

/-- Witness for C3: the first conjunct drops an entry with unreadable
metadata; the second includes an entry with unreadable modification
time. -/
theorem C3_witness :
    ((⟨"fwddmp.log.tmp8".data, none⟩ : DirEntry) ∉
        filter_files [⟨"fwddmp.log.tmp8".data, none⟩] 1000000 1 1000000) ∧
    ((⟨"fwddmp.log.tmp9".data, some ⟨none⟩⟩ : DirEntry) ∈
        filter_files [⟨"fwddmp.log.tmp9".data, some ⟨none⟩⟩] 1000000 1 1000000) :=
  ⟨(C3_metadata_unreadable _ _ _ _ _).1 rfl,
   ((C3_metadata_unreadable _ _ _ _ _).2 rfl).mpr ⟨by decide, by decide, by decide⟩⟩

/-! ### C8: the selection window of the File Selector -/

/-- C8 (confirmed): for an entry with the fixed name prefix and readable
modification time `t`, membership in the selection is equivalent to
`t > nowTs - days_back * 86400` — strictly, so a file whose time equals
the cutoff exactly is excluded.  `nowTs` is captured once per call and
every entry is compared against the same cutoff.  The hypothesis
`0 ≤ nowTs - days_back * 86400` is the precondition of the `u64`
conversion of the cutoff in the source (it panics otherwise). -/
theorem C8_selection_window (entries : List DirEntry) (nowTs days_back : Int)
    (sysNow t : Nat) (e : DirEntry)
    (hcut : 0 ≤ nowTs - days_back * 86400)
    (hmeta : e.metadata = some ⟨some t⟩)
    (hname : "fwddmp.log.tmp".data.isPrefixOf e.file_name = true) :
    e ∈ filter_files entries nowTs days_back sysNow ↔
      e ∈ entries ∧ (t : Int) > nowTs - days_back * 86400 := by
  rw [filter_files, List.mem_filter]
  unfold entryKept
  rw [hmeta]
  simp [hname]

/-- Witness for C8: a file modified inside the window is selected; the
hypotheses hold at the chosen concrete values. -/
theorem C8_witness :
    (⟨"fwddmp.log.tmp3".data, some ⟨some 950000⟩⟩ : DirEntry) ∈
      filter_files [⟨"fwddmp.log.tmp3".data, some ⟨some 950000⟩⟩] 1000000 1 0 :=
  (C8_selection_window _ _ _ _ _ _ (by decide) rfl (by decide)).mpr
    ⟨by decide, by decide⟩

/-! ### C10: the Ledger Writer is append-only -/

/-- C10 (confirmed): appending to an existing ledger preserves the old
content byte for byte as a prefix, with the new entries encoded after
it exactly as they would be written to an empty file; an empty entry
set leaves the content unchanged; an absent file behaves like an empty
one (created, then appended to). -/
theorem C10_append_only (old : List Char) (entries : List (List Char)) :
    write_to_csv entries (some old) = old ++ write_to_csv entries (some []) ∧
    write_to_csv [] (some old) = old ∧
    write_to_csv entries none = write_to_csv entries (some []) := by
  refine ⟨?_, rfl, rfl⟩
  show writeEntriesFrom old entries = old ++ writeEntriesFrom [] entries
  exact writeEntriesFrom_eq entries old

/-! ### Extractor lemmas -/

/-- Membership after a determinised `HashSet::insert`. -/
theorem mem_insertUnique (acc : List (List Char)) (s x : List Char) :
    x ∈ insertUnique acc s ↔ x ∈ acc ∨ x = s := by
  unfold insertUnique
  split
  · rename_i hs
    constructor
    · exact Or.inl
    · rintro (hx | rfl)
      · exact hx
      · exact hs
  · simp

/-- Membership in a fold of determinised inserts. -/
theorem mem_foldl_insertUnique (l : List (List Char)) :
    ∀ (acc : List (List Char)) (x : List Char),
      x ∈ l.foldl insertUnique acc ↔ x ∈ acc ∨ x ∈ l := by
  induction l with
  | nil => intro acc x; simp
  | cons a l ih =>
    intro acc x
    rw [List.foldl_cons, ih, mem_insertUnique]
    constructor
    · rintro ((h | h) | h) <;> simp [h]
    · rintro (h | h)
      · exact Or.inl (Or.inl h)
      · rcases List.mem_cons.mp h with h | h
        · exact Or.inl (Or.inr h)
        · exact Or.inr h

/-- A determinised insert preserves distinctness. -/
theorem nodup_insertUnique (acc : List (List Char)) (s : List Char)
    (h : acc.Nodup) : (insertUnique acc s).Nodup := by
  unfold insertUnique
  split
  · exact h
  · rename_i hs
    simp [List.nodup_append, h, hs]

/-- A fold of determinised inserts yields a duplicate-free list. -/
theorem nodup_foldl_insertUnique (l : List (List Char)) :
    ∀ acc : List (List Char), acc.Nodup → (l.foldl insertUnique acc).Nodup := by
  induction l with
  | nil => intro acc h; exact h
  | cons a l ih => intro acc h; exact ih _ (nodup_insertUnique acc a h)

/-- The size of the deduplicated set equals the number of distinct
inserted values. -/
theorem length_foldl_insertUnique (l : List (List Char)) :
    (l.foldl insertUnique []).length = l.dedup.length := by
  have h1 : (l.foldl insertUnique []).Nodup :=
    nodup_foldl_insertUnique l [] List.nodup_nil
  have h3 : (l.foldl insertUnique []).toFinset = l.toFinset := by
    apply Finset.ext
    intro x
    simp [List.mem_toFinset, mem_foldl_insertUnique]
  calc (l.foldl insertUnique []).length
      = (l.foldl insertUnique []).dedup.length := by rw [List.Nodup.dedup h1]
    _ = (l.foldl insertUnique []).toFinset.card := (List.card_toFinset _).symm
    _ = l.toFinset.card := by rw [h3]
    _ = l.dedup.length := List.card_toFinset l

/-- The entry set of the extractor loop is the fold of the accepted
entries over the accumulator. -/
theorem processRows_fst (cutoff : NaiveDateTime) :
    ∀ (rows : List CsvRow) (acc : List (List Char)),
      (processRows cutoff acc rows).1 =
        (extractEntries cutoff rows).foldl insertUnique acc := by
  intro rows
  induction rows with
  | nil => intro acc; rfl
  | cons row rest ih =>
    intro acc
    cases row with
    | error e => simpa [processRows, extractEntries] using ih acc
    | ok record =>
      cases hp : parseDT (fieldAt record 4) with
      | none =>
        simp only [processRows, extractEntries, List.filterMap_cons,
          includeRecord, hp]
        exact ih acc
      | some dt =>
        by_cases hb : (decide (cutoff.key < dt.key) &&
            decide (fieldAt record 11 = "1".data)) = true
        · simp only [processRows, extractEntries, List.filterMap_cons,
            includeRecord, hp, hb, if_true, List.foldl_cons]
          exact ih (insertUnique acc (entryOf record))
        · simp only [processRows, extractEntries, List.filterMap_cons,
            includeRecord, hp, hb, if_false, Bool.false_eq_true]
          exact ih acc

/-- Membership in the accepted-entry list. -/
theorem mem_extractEntries (cutoff : NaiveDateTime) (rows : List CsvRow)
    (x : List Char) :
    x ∈ extractEntries cutoff rows ↔
      ∃ record, Except.ok record ∈ rows ∧ includeRecord cutoff record = true ∧
        x = entryOf record := by
  unfold extractEntries
  rw [List.mem_filterMap]
  constructor
  · rintro ⟨row, hrow, hf⟩
    cases row with
    | error e => simp at hf
    | ok record =>
      by_cases hinc : includeRecord cutoff record = true
      · simp only [hinc, if_true, Option.some_inj] at hf
        exact ⟨record, hrow, hinc, hf.symm⟩
      · simp [hinc] at hf
  · rintro ⟨record, hrec, hinc, rfl⟩
    exact ⟨Except.ok record, hrec, by simp [hinc]⟩

/-- Unfolding of the inclusion predicate. -/
theorem includeRecord_iff (cutoff : NaiveDateTime) (record : List (List Char)) :
    includeRecord cutoff record = true ↔
      (∃ dt, parseDT (fieldAt record 4) = some dt ∧ cutoff.key < dt.key) ∧
        fieldAt record 11 = "1".data := by
  unfold includeRecord
  cases hp : parseDT (fieldAt record 4) with
  | none => simp [hp]
  | some dt => simp [hp, and_assoc]

/-! ### C4: the inclusion predicate of the extractor -/

/-- C4 (confirmed): an entry string belongs to the extractor output
exactly when some input record produces it, and a record produces an
entry exactly when its `Date/Time` field (index 4) parses under
`%Y/%m/%d %H:%M:%S`, the parsed date is strictly after the cutoff
`now - days_back days`, and its `Blocked` field (index 11) is the
literal `"1"` — so a record with blocked-flag other than `"1"` never
contributes, regardless of date. -/
theorem C4_extractor_inclusion (cutoff : NaiveDateTime) (rows : List CsvRow)
    (x : List Char) :
    x ∈ (process_csv_file rows cutoff).1 ↔
      ∃ record, Except.ok record ∈ rows ∧
        (∃ dt, parseDT (fieldAt record 4) = some dt ∧ cutoff.key < dt.key) ∧
        fieldAt record 11 = "1".data ∧ x = entryOf record := by
  unfold process_csv_file
  rw [processRows_fst, mem_foldl_insertUnique]
  simp only [List.not_mem_nil, false_or]
  rw [mem_extractEntries]
  constructor
  · rintro ⟨record, hrec, hinc, rfl⟩
    rcases (includeRecord_iff cutoff record).mp hinc with ⟨hdt, hb⟩
    exact ⟨record, hrec, hdt, hb, rfl⟩
  · rintro ⟨record, hrec, hdt, hb, rfl⟩
    exact ⟨record, hrec, (includeRecord_iff cutoff record).mpr ⟨hdt, hb⟩, rfl⟩

/-! ### C7: set-based deduplication of the extractor -/

/-- C7 (confirmed): if the records passing the inclusion predicate
produce `N` entry strings of which exactly `K` are distinct, the
extractor output has exactly `K` entries (and `K ≤ N`). -/
theorem C7_dedup_count (cutoff : NaiveDateTime) (rows : List CsvRow) (N K : Nat)
    (hN : (extractEntries cutoff rows).length = N)
    (hK : (extractEntries cutoff rows).dedup.length = K) :
    (process_csv_file rows cutoff).1.length = K ∧ K ≤ N := by
  constructor
  · unfold process_csv_file
    rw [processRows_fst, length_foldl_insertUnique, hK]
  · rw [← hN, ← hK]
    exact (List.dedup_sublist _).length_le

/-- Witness rows for C7: three accepted records, two distinct entries. -/
def rowsC7 : List CsvRow :=
  [Except.ok (["f0", "2", "f2", "[tag> desc", "2024/01/10 08:00:00", "f5",
      "IP_A", "f7", "f8", "f9", "f10", "1", "IP_B"].map String.data),
   Except.ok (["f0", "2", "f2", "[tag> desc", "2024/01/10 08:00:00", "f5",
      "IP_A", "f7", "f8", "f9", "f10", "1", "IP_B"].map String.data),
   Except.ok (["f0", "2", "f2", "[tag> desc", "2024/01/10 08:00:00", "f5",
      "IP_C", "f7", "f8", "f9", "f10", "1", "IP_B"].map String.data)]

/-- Witness for C7: on `rowsC7` (N = 3 accepted records, K = 2 distinct
canonical strings) the output has exactly 2 entries. -/
theorem C7_witness :
    (process_csv_file rowsC7 ⟨2024, 1, 2, 0, 0, 0⟩).1.length = 2 ∧ 2 ≤ 3 :=
  C7_dedup_count ⟨2024, 1, 2, 0, 0, 0⟩ rowsC7 3 2 (by decide) (by decide)

/-! ### C6: malformed-timestamp handling in extractor and compactor -/

/-- C6 (confirmed): a record whose timestamp field does not parse is,
in the extractor, skipped with the printed diagnostic
`Skipping record with invalid date: ...` while the remaining rows are
processed unchanged (not fatal); in the compactor the analogous record
is dropped with no diagnostic at all (the compactor prints nothing)
and processing continues with the remaining rows (not fatal). -/
theorem C6_malformed_records (cutoff : NaiveDateTime)
    (record : List (List Char)) (rows : List CsvRow)
    (hdr record2 : List (List Char)) (rest : List (List (List Char)))
    (d : List Char)
    (h4 : parseDT (fieldAt record 4) = none)
    (hd : record2.head? = some d) (hpd : parseDT d = none) :
    ((process_csv_file (Except.ok record :: rows) cutoff).1 =
        (process_csv_file rows cutoff).1 ∧
     (process_csv_file (Except.ok record :: rows) cutoff).2 =
        ("Skipping record with invalid date: ".data ++ fieldAt record 4) ::
          (process_csv_file rows cutoff).2) ∧
    (filter_csv_by_date (hdr :: record2 :: rest) cutoff =
        filter_csv_by_date (hdr :: rest) cutoff ∧
     (filter_csv_by_date (hdr :: record2 :: rest) cutoff).2 = []) := by
  refine ⟨⟨?_, ?_⟩, ?_, rfl⟩
  · simp [process_csv_file, processRows, h4]
  · simp [process_csv_file, processRows, h4]
  · unfold filter_csv_by_date
    simp only [List.drop_succ_cons, List.drop_zero]
    have : compactKeep cutoff (record2 :: rest) = compactKeep cutoff rest := by
      unfold compactKeep
      rw [List.foldl_cons]
      have hstep : compactStep cutoff [] record2 = [] := by
        unfold compactStep
        rw [hd]
        simp [hpd]
      rw [hstep]
    rw [this]

/-- Witness for C6 at concrete inputs: an extractor record with
timestamp text `"oops"` and a compactor row with first field `"bad"`. -/
theorem C6_witness :
    ((process_csv_file
        [Except.ok [[], [], [], [], "oops".data]] ⟨2024, 1, 2, 0, 0, 0⟩).1 =
      (process_csv_file [] ⟨2024, 1, 2, 0, 0, 0⟩).1 ∧
     (process_csv_file
        [Except.ok [[], [], [], [], "oops".data]] ⟨2024, 1, 2, 0, 0, 0⟩).2 =
      ("Skipping record with invalid date: ".data ++
          fieldAt [[], [], [], [], "oops".data] 4) ::
        (process_csv_file [] ⟨2024, 1, 2, 0, 0, 0⟩).2) ∧
    (filter_csv_by_date [["hdr".data], ["bad".data]] ⟨2024, 1, 2, 0, 0, 0⟩ =
        filter_csv_by_date [["hdr".data]] ⟨2024, 1, 2, 0, 0, 0⟩ ∧
     (filter_csv_by_date [["hdr".data], ["bad".data]] ⟨2024, 1, 2, 0, 0, 0⟩).2 = []) :=
  C6_malformed_records ⟨2024, 1, 2, 0, 0, 0⟩ [[], [], [], [], "oops".data] []
    ["hdr".data] ["bad".data] [] "bad".data (by decide) rfl (by decide)

/-! ### Parser-character lemmas (a parsed timestamp contains no comma) -/

/-- A successful numeric item consumed only white-space and digits. -/
theorem parseNum_consumed (k : Nat) (cs : List Char) (n : Nat) (rest : List Char)
    (h : parseNum k cs = some (n, rest)) :
    ∃ pre, cs = pre ++ rest ∧
      ∀ c ∈ pre, isUnicodeWs c = true ∨ c.isDigit = true := by
  unfold parseNum at h
  by_cases hne : (((cs.dropWhile isUnicodeWs).takeWhile Char.isDigit).take k).isEmpty
  · rw [if_pos hne] at h
    exact absurd h (by simp)
  · rw [if_neg hne, Option.some_inj, Prod.mk.injEq] at h
    obtain ⟨-, hrest⟩ := h
    set cs' := cs.dropWhile isUnicodeWs with hcs'
    set ds := ((cs.dropWhile isUnicodeWs).takeWhile Char.isDigit).take k with hds
    have hpre : ds <+: cs' :=
      (List.take_prefix k _).trans (List.takeWhile_prefix _)
    have htake : cs'.take ds.length = ds := (List.prefix_iff_eq_take.mp hpre).symm
    have hsplit : cs' = ds ++ rest := by
      conv_lhs => rw [← List.take_append_drop ds.length cs']
      rw [htake, hrest]
    refine ⟨cs.takeWhile isUnicodeWs ++ ds, ?_, ?_⟩
    · rw [List.append_assoc, ← hsplit, hcs', List.takeWhile_append_dropWhile]
    · intro c hc
      rcases List.mem_append.mp hc with hc | hc
      · exact Or.inl (List.mem_takeWhile_imp hc)
      · exact Or.inr (List.mem_takeWhile_imp (List.take_subset k _ hc))

/-- A successful literal item consumed exactly that character. -/
theorem expectChar_eq (c : Char) (cs rest : List Char)
    (h : expectChar c cs = some rest) : cs = c :: rest := by
  cases cs with
  | nil => simp [expectChar] at h
  | cons c' cs' =>
    change (if c' = c then some cs' else none) = some rest at h
    by_cases hc : c' = c
    · rw [if_pos hc, Option.some_inj] at h
      rw [hc, h]
    · rw [if_neg hc] at h
      exact absurd h (by simp)

/-- Every character of a string that parses as a timestamp is
white-space, a digit, a slash or a colon. -/
theorem parseDT_chars (cs : List Char) (dt : NaiveDateTime)
    (h : parseDT cs = some dt) :
    ∀ c ∈ cs, isUnicodeWs c = true ∨ c.isDigit = true ∨ c = '/' ∨ c = ':' := by
  unfold parseDT at h
  cases h1 : parseNum 4 cs with
  | none => simp [h1] at h
  | some p1 =>
  obtain ⟨y, r1⟩ := p1
  simp only [h1] at h
  cases h2 : expectChar '/' r1 with
  | none => simp [h2] at h
  | some r2 =>
  simp only [h2] at h
  cases h3 : parseNum 2 r2 with
  | none => simp [h3] at h
  | some p3 =>
  obtain ⟨mo, r3⟩ := p3
  simp only [h3] at h
  cases h4 : expectChar '/' r3 with
  | none => simp [h4] at h
  | some r4 =>
  simp only [h4] at h
  cases h5 : parseNum 2 r4 with
  | none => simp [h5] at h
  | some p5 =>
  obtain ⟨d, r5⟩ := p5
  simp only [h5] at h
  cases h6 : parseNum 2 (r5.dropWhile isUnicodeWs) with
  | none => simp [h6] at h
  | some p6 =>
  obtain ⟨hh, r6⟩ := p6
  simp only [h6] at h
  cases h7 : expectChar ':' r6 with
  | none => simp [h7] at h
  | some r7 =>
  simp only [h7] at h
  cases h8 : parseNum 2 r7 with
  | none => simp [h8] at h
  | some p8 =>
  obtain ⟨mi, r8⟩ := p8
  simp only [h8] at h
  cases h9 : expectChar ':' r8 with
  | none => simp [h9] at h
  | some r9 =>
  simp only [h9] at h
  cases h10 : parseNum 2 r9 with
  | none => simp [h10] at h
  | some p10 =>
  obtain ⟨ss, r10⟩ := p10
  simp only [h10] at h
  cases r10 with
  | cons c10 r10' => simp [List.isEmpty] at h
  | nil =>
  obtain ⟨q1, e1, hq1⟩ := parseNum_consumed 4 cs y r1 h1
  have e2 := expectChar_eq '/' r1 r2 h2
  obtain ⟨q2, e3, hq2⟩ := parseNum_consumed 2 r2 mo r3 h3
  have e4 := expectChar_eq '/' r3 r4 h4
  obtain ⟨q3, e5, hq3⟩ := parseNum_consumed 2 r4 d r5 h5
  obtain ⟨q4, e6, hq4⟩ := parseNum_consumed 2 (r5.dropWhile isUnicodeWs) hh r6 h6
  have e5' : r5 = r5.takeWhile isUnicodeWs ++ (q4 ++ r6) := by
    rw [← e6, List.takeWhile_append_dropWhile]
  have e7 := expectChar_eq ':' r6 r7 h7
  obtain ⟨q5, e8, hq5⟩ := parseNum_consumed 2 r7 mi r8 h8
  have e9 := expectChar_eq ':' r8 r9 h9
  obtain ⟨q6, e10, hq6⟩ := parseNum_consumed 2 r9 ss [] h10
  have okNum : ∀ (q : List Char),
      (∀ c ∈ q, isUnicodeWs c = true ∨ c.isDigit = true) →
      ∀ c ∈ q, isUnicodeWs c = true ∨ c.isDigit = true ∨ c = '/' ∨ c = ':' :=
    fun q hq c hc => (hq c hc).elim Or.inl (fun hd => Or.inr (Or.inl hd))
  rw [e1, List.forall_mem_append]
  refine ⟨okNum q1 hq1, ?_⟩
  rw [e2, List.forall_mem_cons]
  refine ⟨Or.inr (Or.inr (Or.inl rfl)), ?_⟩
  rw [e3, List.forall_mem_append]
  refine ⟨okNum q2 hq2, ?_⟩
  rw [e4, List.forall_mem_cons]
  refine ⟨Or.inr (Or.inr (Or.inl rfl)), ?_⟩
  rw [e5, List.forall_mem_append]
  refine ⟨okNum q3 hq3, ?_⟩
  rw [e5', List.forall_mem_append]
  refine ⟨?_, ?_⟩
  · exact fun c hc => Or.inl (List.mem_takeWhile_imp hc)
  rw [List.forall_mem_append]
  refine ⟨okNum q4 hq4, ?_⟩
  rw [e7, List.forall_mem_cons]
  refine ⟨Or.inr (Or.inr (Or.inr rfl)), ?_⟩
  rw [e8, List.forall_mem_append]
  refine ⟨okNum q5 hq5, ?_⟩
  rw [e9, List.forall_mem_cons]
  refine ⟨Or.inr (Or.inr (Or.inr rfl)), ?_⟩
  rw [e10, List.forall_mem_append]
  exact ⟨okNum q6 hq6, by simp⟩

/-- A string that parses as a timestamp contains no comma, so the first
comma-separated piece of a record string whose first field is such a
timestamp is that whole field. -/
theorem parseDT_no_comma (cs : List Char) (dt : NaiveDateTime)
    (h : parseDT cs = some dt) : ∀ c ∈ cs, c ≠ ',' := by
  intro c hc he
  subst he
  rcases parseDT_chars cs dt h ',' hc with hbad | hbad | hbad | hbad
  · exact absurd hbad (by decide)
  · exact absurd hbad (by decide)
  · exact absurd hbad (by decide)
  · exact absurd hbad (by decide)

/-! ### Comma split/join lemmas -/

/-- Splitting a comma-free suffix yields a single field. -/
theorem splitCommaAux_no_comma (d : List Char) :
    ∀ acc, (∀ c ∈ d, c ≠ ',') → splitCommaAux acc d = [acc.reverse ++ d] := by
  induction d with
  | nil => intro acc _; simp [splitCommaAux]
  | cons c d' ih =>
    intro acc h
    have hc : ¬(c = ',') := h c (by simp)
    show (if c = ',' then acc.reverse :: splitCommaAux [] d'
          else splitCommaAux (c :: acc) d') = _
    rw [if_neg hc, ih (c :: acc) (fun x hx => h x (by simp [hx]))]
    simp

/-- Splitting a string that starts with a comma-free field followed by a
comma peels off that field. -/
theorem splitCommaAux_comma (d : List Char) :
    ∀ acc t, (∀ c ∈ d, c ≠ ',') →
      splitCommaAux acc (d ++ ',' :: t) = (acc.reverse ++ d) :: splitCommaAux [] t := by
  induction d with
  | nil =>
    intro acc t _
    show (if ',' = ',' then acc.reverse :: splitCommaAux [] t
          else splitCommaAux (',' :: acc) t) = _
    rw [if_pos rfl]
    simp
  | cons c d' ih =>
    intro acc t h
    have hc : ¬(c = ',') := h c (by simp)
    show (if c = ',' then acc.reverse :: splitCommaAux [] (d' ++ ',' :: t)
          else splitCommaAux (c :: acc) (d' ++ ',' :: t)) = _
    rw [if_neg hc, ih (c :: acc) t (fun x hx => h x (by simp [hx]))]
    simp

/-- The first comma-separated piece of a comma-join whose head field is
comma-free is that head field. -/
theorem head_splitComma_joinComma (d : List Char) (rest : List (List Char))
    (h : ∀ c ∈ d, c ≠ ',') :
    (splitComma (joinComma (d :: rest))).headD [] = d := by
  cases rest with
  | nil =>
    show (splitComma d).headD [] = d
    unfold splitComma
    rw [splitCommaAux_no_comma d [] h]
    rfl
  | cons r rs =>
    show (splitComma (d ++ ',' :: joinComma (r :: rs))).headD [] = d
    unfold splitComma
    rw [splitCommaAux_comma d [] (joinComma (r :: rs)) h]
    rfl

/-! ### Compactor lemmas -/

/-- Membership after one compactor step. -/
theorem mem_compactStep (cutoff : NaiveDateTime) (acc : List (List Char))
    (record : List (List Char)) (x : List Char) :
    x ∈ compactStep cutoff acc record ↔
      x ∈ acc ∨ ∃ d dt, record.head? = some d ∧ parseDT d = some dt ∧
        cutoff.key < dt.key ∧ x = joinComma record := by
  unfold compactStep
  cases h1 : record.head? with
  | none => simp [h1]
  | some d =>
    cases h2 : parseDT d with
    | none => simp [h1, h2]
    | some dt =>
      by_cases h3 : cutoff.key < dt.key
      · simp [h1, h2, h3, mem_insertUnique]
      · simp [h1, h2, h3]

/-- Membership in the compactor keep-set. -/
theorem mem_foldl_compactStep (cutoff : NaiveDateTime) :
    ∀ (rows : List (List (List Char))) (acc : List (List Char)) (x : List Char),
      x ∈ rows.foldl (compactStep cutoff) acc ↔
        x ∈ acc ∨ ∃ record, record ∈ rows ∧ ∃ d dt, record.head? = some d ∧
          parseDT d = some dt ∧ cutoff.key < dt.key ∧ x = joinComma record := by
  intro rows
  induction rows with
  | nil => intro acc x; simp
  | cons r rows ih =>
    intro acc x
    rw [List.foldl_cons, ih, mem_compactStep]
    constructor
    · rintro ((h | ⟨d, dt, hd, hpd, hk, rfl⟩) | ⟨record, hrec, hdata⟩)
      · exact Or.inl h
      · exact Or.inr ⟨r, List.mem_cons_self r rows, d, dt, hd, hpd, hk, rfl⟩
      · exact Or.inr ⟨record, List.mem_cons_of_mem r hrec, hdata⟩
    · rintro (h | ⟨record, hrec, hdata⟩)
      · exact Or.inl (Or.inl h)
      · rcases List.mem_cons.mp hrec with rfl | hrec
        · exact Or.inl (Or.inr hdata)
        · exact Or.inr ⟨record, hrec, hdata⟩

/-- One compactor step preserves distinctness. -/
theorem nodup_compactStep (cutoff : NaiveDateTime) (acc : List (List Char))
    (record : List (List Char)) (h : acc.Nodup) :
    (compactStep cutoff acc record).Nodup := by
  unfold compactStep
  split
  · exact h
  · split
    · exact h
    · split
      · exact nodup_insertUnique acc _ h
      · exact h

/-- The compactor keep-set is duplicate-free. -/
theorem nodup_foldl_compactStep (cutoff : NaiveDateTime) :
    ∀ (rows : List (List (List Char))) (acc : List (List Char)),
      acc.Nodup → (rows.foldl (compactStep cutoff) acc).Nodup := by
  intro rows
  induction rows with
  | nil => intro acc h; exact h
  | cons r rows ih => intro acc h; exact ih _ (nodup_compactStep cutoff acc r h)

/-- The descending comparator is transitive. -/
theorem descLe_trans (a b c : List Char) (h1 : descLe a b = true)
    (h2 : descLe b c = true) : descLe a c = true := by
  simp only [descLe, decide_eq_true_eq] at *
  exact le_trans h2 h1

/-- The descending comparator is total. -/
theorem descLe_total (a b : List Char) : (descLe a b || descLe b a) = true := by
  simp only [descLe, Bool.or_eq_true, decide_eq_true_eq]
  exact Nat.le_total (recordKey b) (recordKey a)

/-! ### C5: compactor invariants -/

/-- C5 (confirmed): after a compactor pass over any ledger rows, every
record string written back has a first field that parses to a timestamp
strictly newer than the retention cutoff, the output contains no
duplicate records, and the output is ordered with non-increasing parsed
timestamps (descending; ties unordered). -/
theorem C5_compactor_invariants (rows : List (List (List Char)))
    (cutoff : NaiveDateTime) :
    (∀ s ∈ (filter_csv_by_date rows cutoff).1,
       ∃ dt, parseDT ((splitComma s).headD []) = some dt ∧ cutoff.key < dt.key) ∧
    (filter_csv_by_date rows cutoff).1.Nodup ∧
    (filter_csv_by_date rows cutoff).1.Pairwise
      (fun a b => recordKey b ≤ recordKey a) := by
  have hfst : (filter_csv_by_date rows cutoff).1 =
      (compactKeep cutoff (rows.drop 1)).mergeSort descLe := rfl
  have hperm := List.mergeSort_perm (compactKeep cutoff (rows.drop 1)) descLe
  refine ⟨?_, ?_, ?_⟩
  · intro s hs
    rw [hfst] at hs
    have hs' : s ∈ compactKeep cutoff (rows.drop 1) := hperm.mem_iff.mp hs
    rw [compactKeep, mem_foldl_compactStep] at hs'
    rcases hs' with h | ⟨record, -, d, dt, hd, hpd, hk, rfl⟩
    · exact absurd h (List.not_mem_nil s)
    · obtain ⟨tl, rfl⟩ : ∃ tl, record = d :: tl := by
        cases record with
        | nil => simp at hd
        | cons a tl =>
          rw [List.head?_cons, Option.some_inj] at hd
          exact ⟨tl, by rw [hd]⟩
      rw [head_splitComma_joinComma d tl (parseDT_no_comma d dt hpd)]
      exact ⟨dt, hpd, hk⟩
  · rw [hfst]
    exact hperm.nodup_iff.mpr
      (nodup_foldl_compactStep cutoff (rows.drop 1) [] List.nodup_nil)
  · rw [hfst]
    have hs := List.sorted_mergeSort descLe_trans descLe_total
      (compactKeep cutoff (rows.drop 1))
    exact hs.imp (fun h => by simpa [descLe] using h)

/-- Witness ledger rows for C5 (first row plays the skipped header). -/
def rowsC5 : List (List (List Char)) :=
  [["hdr".data],
   ["2024/02/01 00:00:00".data, "a".data],
   ["2024/01/01 00:00:00".data, "b".data],
   ["2024/02/05 00:00:00".data, "c".data]]

/-- Witness cutoff for C5 (`now - 15 days` for `now = 2024/02/10`). -/
def cutC5 : NaiveDateTime := ⟨2024, 1, 26, 0, 0, 0⟩

/-- Witness for C5: on `rowsC5` the surviving record
`"2024/02/05 00:00:00,c"` parses strictly newer than the cutoff, and
the rewritten ledger is duplicate-free and sorted descending. -/
theorem C5_witness :
    (∃ dt, parseDT ((splitComma "2024/02/05 00:00:00,c".data).headD []) =
       some dt ∧ cutC5.key < dt.key) ∧
    (filter_csv_by_date rowsC5 cutC5).1.Nodup ∧
    (filter_csv_by_date rowsC5 cutC5).1.Pairwise
      (fun a b => recordKey b ≤ recordKey a) := by
  refine ⟨(C5_compactor_invariants rowsC5 cutC5).1
      "2024/02/05 00:00:00,c".data ?_,
    (C5_compactor_invariants rowsC5 cutC5).2.1,
    (C5_compactor_invariants rowsC5 cutC5).2.2⟩
  show _ ∈ (compactKeep cutC5 (rowsC5.drop 1)).mergeSort descLe
  exact (List.mergeSort_perm (compactKeep cutC5 (rowsC5.drop 1)) descLe).mem_iff.mpr
    (by decide)

/-! ### Writer/reader round-trip lemmas -/

/-- Splitting never yields an empty field list. -/
theorem splitCommaAux_ne_nil (cs : List Char) :
    ∀ acc, splitCommaAux acc cs ≠ [] := by
  induction cs with
  | nil => intro acc; simp [splitCommaAux]
  | cons c cs' ih =>
    intro acc
    unfold splitCommaAux
    by_cases hc : c = ','
    · rw [if_pos hc]; simp
    · rw [if_neg hc]; exact ih (c :: acc)

/-- A record produced by `splitComma` has at least one field. -/
theorem splitComma_ne_nil (cs : List Char) : splitComma cs ≠ [] :=
  splitCommaAux_ne_nil cs []

/-- The reader consumes a run of ordinary characters in an unquoted
field by appending them to the current field. -/
theorem consume_plain (g : List Char) :
    ∀ (R : List (List (List Char))) (C : List (List Char)) (acc : List Char)
      (s : Bool),
      (∀ c ∈ g, ¬(c = ',') ∧ ¬(c = '"') ∧ ¬(c = '\n') ∧ ¬(c = '\r')) →
      List.foldl csvStep ⟨R, C, acc, CsvMode.plain, s⟩ g =
        ⟨R, C, acc ++ g, CsvMode.plain, s || !g.isEmpty⟩ := by
  induction g with
  | nil => intro R C acc s h; simp
  | cons c g' ih =>
    intro R C acc s h
    obtain ⟨hc1, hc2, hc3, hc4⟩ := h c (List.mem_cons_self c g')
    rw [List.foldl_cons,
      show csvStep ⟨R, C, acc, CsvMode.plain, s⟩ c =
        ⟨R, C, acc ++ [c], CsvMode.plain, true⟩ from by
          simp [csvStep, hc1, hc2, hc3, hc4],
      ih R C (acc ++ [c]) true (fun x hx => h x (List.mem_cons_of_mem c hx))]
    simp

/-- The reader consumes an escaped field body inside quotes by appending
the unescaped characters. -/
theorem consume_quoted (g : List Char) :
    ∀ (R : List (List (List Char))) (C : List (List Char)) (acc : List Char)
      (s : Bool),
      List.foldl csvStep ⟨R, C, acc, CsvMode.quoted, s⟩ (escapeQuotes g) =
        ⟨R, C, acc ++ g, CsvMode.quoted, s⟩ := by
  induction g with
  | nil => intro R C acc s; simp [escapeQuotes]
  | cons c g' ih =>
    intro R C acc s
    by_cases hc : c = '"'
    · subst hc
      rw [show escapeQuotes ('"' :: g') = '"' :: '"' :: escapeQuotes g' from by
            simp [escapeQuotes],
        List.foldl_cons, List.foldl_cons,
        show csvStep ⟨R, C, acc, CsvMode.quoted, s⟩ '"' =
          ⟨R, C, acc, CsvMode.quoteSeen, s⟩ from by simp [csvStep],
        show csvStep ⟨R, C, acc, CsvMode.quoteSeen, s⟩ '"' =
          ⟨R, C, acc ++ ['"'], CsvMode.quoted, s⟩ from by simp [csvStep],
        ih R C (acc ++ ['"']) s]
      simp
    · rw [show escapeQuotes (c :: g') = c :: escapeQuotes g' from by
            simp [escapeQuotes, hc],
        List.foldl_cons,
        show csvStep ⟨R, C, acc, CsvMode.quoted, s⟩ c =
          ⟨R, C, acc ++ [c], CsvMode.quoted, s⟩ from by simp [csvStep, hc],
        ih R C (acc ++ [c]) s]
      simp

/-- The characters of a field the writer leaves unquoted. -/
theorem needsQuote_chars (f : List Char) (hq : needsQuote f = false) :
    ∀ c ∈ f, ¬(c = ',') ∧ ¬(c = '"') ∧ ¬(c = '\n') ∧ ¬(c = '\r') := by
  intro c hc
  have h2 : ¬(c = ',' || c = '"' || c = '\n' || c = '\r') = true := by
    intro hcontra
    have hT : needsQuote f = true := by
      unfold needsQuote
      rw [List.any_eq_true]
      exact ⟨c, hc, hcontra⟩
    rw [hT] at hq
    exact Bool.noConfusion hq
  simp only [Bool.or_eq_true, decide_eq_true_eq, not_or] at h2
  exact ⟨h2.1.1.1, h2.1.1.2, h2.1.2, h2.2⟩

/-- The reader consumes one quoted encoded field from a fresh-field
state: it ends just after the closing quote, with the decoded field
pending. -/
theorem consume_encoded_quoted (f : List Char) (R : List (List (List Char)))
    (C : List (List Char)) (s : Bool) (hq : needsQuote f = true) :
    List.foldl csvStep ⟨R, C, [], CsvMode.plain, s⟩ (encodeField f) =
      ⟨R, C, f, CsvMode.quoteSeen, true⟩ := by
  rw [show encodeField f = '"' :: (escapeQuotes f ++ ['"']) from by
      simp [encodeField, hq],
    List.foldl_cons,
    show csvStep ⟨R, C, [], CsvMode.plain, s⟩ '"' =
      ⟨R, C, [], CsvMode.quoted, true⟩ from by simp [csvStep],
    List.foldl_append, consume_quoted,
    show List.foldl csvStep ⟨R, C, [] ++ f, CsvMode.quoted, true⟩ ['"'] =
      ⟨R, C, [] ++ f, CsvMode.quoteSeen, true⟩ from by simp [csvStep]]
  simp

/-- The reader consumes one unquoted encoded field from a fresh-field
state. -/
theorem consume_encoded_plain (f : List Char) (R : List (List (List Char)))
    (C : List (List Char)) (s : Bool) (hq : needsQuote f = false) :
    List.foldl csvStep ⟨R, C, [], CsvMode.plain, s⟩ (encodeField f) =
      ⟨R, C, f, CsvMode.plain, s || !f.isEmpty⟩ := by
  rw [show encodeField f = f from by simp [encodeField, hq],
    consume_plain f R C [] s (needsQuote_chars f hq)]
  simp

/-- The reader consumes one encoded field followed by a comma, finishing
the field. -/
theorem consume_mid_field (f : List Char) (R : List (List (List Char)))
    (C : List (List Char)) (s : Bool) (hf : csvTrim f = f) :
    List.foldl csvStep ⟨R, C, [], CsvMode.plain, s⟩ (encodeField f ++ [',']) =
      ⟨R, C ++ [f], [], CsvMode.plain, true⟩ := by
  rw [List.foldl_append]
  cases hq : needsQuote f with
  | true =>
    rw [consume_encoded_quoted f R C s hq,
      show List.foldl csvStep ⟨R, C, f, CsvMode.quoteSeen, true⟩ [','] =
        ⟨R, C ++ [csvTrim f], [], CsvMode.plain, true⟩ from by simp [csvStep],
      hf]
  | false =>
    rw [consume_encoded_plain f R C s hq,
      show List.foldl csvStep ⟨R, C, f, CsvMode.plain, s || !f.isEmpty⟩ [','] =
        ⟨R, C ++ [csvTrim f], [], CsvMode.plain, true⟩ from by simp [csvStep],
      hf]

/-- The reader consumes the last encoded field of a record followed by
the terminator, emitting the record. -/
theorem consume_last_field (f : List Char) (R : List (List (List Char)))
    (C : List (List Char)) (s : Bool) (hf : csvTrim f = f)
    (hs : s = true ∨ f ≠ [] ∨ needsQuote f = true) :
    List.foldl csvStep ⟨R, C, [], CsvMode.plain, s⟩ (encodeField f ++ ['\n']) =
      ⟨R ++ [C ++ [f]], [], [], CsvMode.plain, false⟩ := by
  rw [List.foldl_append]
  cases hq : needsQuote f with
  | true =>
    rw [consume_encoded_quoted f R C s hq,
      show List.foldl csvStep ⟨R, C, f, CsvMode.quoteSeen, true⟩ ['\n'] =
        ⟨R ++ [C ++ [csvTrim f]], [], [], CsvMode.plain, false⟩ from by
          simp [csvStep],
      hf]
  | false =>
    have hstart : (s || !f.isEmpty) = true := by
      rcases hs with hs | hs | hs
      · simp [hs]
      · simp [List.isEmpty_eq_false.mpr hs]
      · rw [hs] at hq; exact Bool.noConfusion hq
    rw [consume_encoded_plain f R C s hq,
      show List.foldl csvStep ⟨R, C, f, CsvMode.plain, s || !f.isEmpty⟩ ['\n'] =
        ⟨R ++ [C ++ [csvTrim f]], [], [], CsvMode.plain, false⟩ from by
          simp [csvStep, hstart],
      hf]

/-- Comma-join unfolding for the encoded fields of a record with at
least two fields. -/
theorem joinComma_map_cons (f r : List Char) (rs : List (List Char)) :
    joinComma ((f :: r :: rs).map encodeField) =
      encodeField f ++ ',' :: joinComma ((r :: rs).map encodeField) := rfl

/-- The reader consumes the encoded tail fields of a record (after at
least one field has been consumed, so the record is started). -/
theorem consume_fields (fields : List (List Char)) :
    ∀ (R : List (List (List Char))) (C : List (List Char)),
      fields ≠ [] → (∀ f ∈ fields, csvTrim f = f) →
      List.foldl csvStep ⟨R, C, [], CsvMode.plain, true⟩
        (joinComma (fields.map encodeField) ++ ['\n']) =
      ⟨R ++ [C ++ fields], [], [], CsvMode.plain, false⟩ := by
  induction fields with
  | nil => intro R C h _; exact absurd rfl h
  | cons f rest ih =>
    intro R C _ htrim
    cases rest with
    | nil =>
      show List.foldl csvStep _ (encodeField f ++ ['\n']) = _
      rw [consume_last_field f R C true (htrim f (by simp)) (Or.inl rfl)]
    | cons f2 rest2 =>
      rw [joinComma_map_cons,
        show (encodeField f ++ ',' :: joinComma ((f2 :: rest2).map encodeField))
              ++ ['\n'] =
            (encodeField f ++ [',']) ++
              (joinComma ((f2 :: rest2).map encodeField) ++ ['\n']) from by simp,
        List.foldl_append,
        consume_mid_field f R C true (htrim f (by simp)),
        ih R (C ++ [f]) (by simp) (fun x hx => htrim x (by simp [hx]))]
      simp

/-- The reader consumes one whole written record, emitting exactly its
field list, and returns to the fresh-record state. -/
theorem consume_record (fields : List (List Char))
    (R : List (List (List Char))) (s : Bool)
    (hne : fields ≠ []) (htrim : ∀ f ∈ fields, csvTrim f = f) :
    List.foldl csvStep ⟨R, [], [], CsvMode.plain, s⟩ (writeRecord fields) =
      ⟨R ++ [fields], [], [], CsvMode.plain, false⟩ := by
  by_cases hsp : fields = [[]]
  · subst hsp
    rw [show writeRecord [[]] = ['"', '"', '\n'] from rfl,
      List.foldl_cons,
      show csvStep ⟨R, [], [], CsvMode.plain, s⟩ '"' =
        ⟨R, [], [], CsvMode.quoted, true⟩ from by simp [csvStep],
      List.foldl_cons,
      show csvStep ⟨R, [], [], CsvMode.quoted, true⟩ '"' =
        ⟨R, [], [], CsvMode.quoteSeen, true⟩ from by simp [csvStep],
      show List.foldl csvStep ⟨R, [], [], CsvMode.quoteSeen, true⟩ ['\n'] =
        ⟨R ++ [[] ++ [csvTrim []]], [], [], CsvMode.plain, false⟩ from by
          simp [csvStep]]
    simp [csvTrim]
  · rw [show writeRecord fields = joinComma (fields.map encodeField) ++ ['\n'] from by
        simp [writeRecord, hsp]]
    cases fields with
    | nil => exact absurd rfl hne
    | cons f rest =>
      cases rest with
      | nil =>
        have hfne : f ≠ [] := fun h => hsp (by rw [h])
        show List.foldl csvStep _ (encodeField f ++ ['\n']) = _
        rw [consume_last_field f R [] s (htrim f (by simp))
          (Or.inr (Or.inl hfne))]
        simp
      | cons f2 rest2 =>
        rw [joinComma_map_cons,
          show (encodeField f ++ ',' :: joinComma ((f2 :: rest2).map encodeField))
                ++ ['\n'] =
              (encodeField f ++ [',']) ++
                (joinComma ((f2 :: rest2).map encodeField) ++ ['\n']) from by simp,
          List.foldl_append,
          consume_mid_field f R [] s (htrim f (by simp))]
        simp only [List.nil_append]
        rw [consume_fields (f2 :: rest2) R [f] (by simp)
            (fun x hx => htrim x (by simp [hx]))]
        simp

/-- Reading back a sequence of written records recovers all their field
lists, in order. -/
theorem readCsv_writeEntries (entries : List (List Char)) :
    ∀ R, (∀ e ∈ entries, ∀ f ∈ splitComma e, csvTrim f = f) →
      List.foldl csvStep ⟨R, [], [], CsvMode.plain, false⟩
          (writeEntriesFrom [] entries) =
        ⟨R ++ entries.map splitComma, [], [], CsvMode.plain, false⟩ := by
  induction entries with
  | nil => intro R _; simp [writeEntriesFrom]
  | cons e rest ih =>
    intro R h
    rw [show writeEntriesFrom [] (e :: rest) =
          writeRecord (splitComma e) ++ writeEntriesFrom [] rest from by
        show writeEntriesFrom ([] ++ writeRecord (splitComma e)) rest = _
        rw [writeEntriesFrom_eq]
        simp,
      List.foldl_append,
      consume_record (splitComma e) R false (splitComma_ne_nil e) (h e (by simp)),
      ih (R ++ [splitComma e]) (fun x hx => h x (by simp [hx]))]
    simp

/-! ### C9: write/re-parse round-trip -/

/-- C9 counterexample: the claim, which assumes only that descriptions
contain no embedded commas, fails for an entry with a field carrying
trailing white-space: the field `"a "` is written verbatim (no quoting)
and the reader with `Trim::All` gives back `"a"`, so the original field
tuple is not reconstructed. -/
theorem C9_counterexample :
    readCsv (write_to_csv ["2024/01/01 00:00:00,a ,b,d,p".data] none) ≠
      ["2024/01/01 00:00:00,a ,b,d,p".data].map splitComma := by decide

/-- C9 (amended): writing a set of canonical entry strings and re-parsing
the file as delimited records with whitespace-trimmed fields
reconstructs exactly the original comma-split field tuples, provided
every field is unchanged by Unicode-whitespace trimming (fields of the
tuples contain no commas by construction, which subsumes the
no-embedded-comma proviso of the original claim at the tuple level). -/
theorem C9_roundtrip (entries : List (List Char))
    (h : ∀ e ∈ entries, ∀ f ∈ splitComma e, csvTrim f = f) :
    readCsv (write_to_csv entries none) = entries.map splitComma := by
  show csvFinish (List.foldl csvStep csvInit (writeEntriesFrom [] entries)) = _
  rw [show (csvInit : CsvState) = ⟨[], [], [], CsvMode.plain, false⟩ from rfl,
    readCsv_writeEntries entries [] h]
  simp [csvFinish]

/-- Witness for C9: the canonical entry of the worked example of the
spec round-trips exactly. -/
theorem C9_witness :
    readCsv (write_to_csv ["2024/01/10 08:00:00,IP_A,IP_B,real text,2".data] none) =
      ["2024/01/10 08:00:00,IP_A,IP_B,real text,2".data].map splitComma :=
  C9_roundtrip _ (by decide)

end DashboardBuilder
